import Mathlib

/-!
Verification of the trie-based compound-word finder (`words.c` / `words.cpp`).

The C program builds a 26-ary prefix trie over lowercase words and then, for
each word (processed by length, longest first), decides whether the word can
be segmented into dictionary words using `isLeafBreak` (breakpoint search with
an in-out `mid` parameter) and `concatWord` (recursive segmentation; note that
the C code passes the loop variable `i` by reference as `mid`, so a successful
breakpoint search advances the loop variable).

Characters are modelled as `Fin 26` (the C code maps `'a'..'z'` to `0..25` and
its behavior is only defined for lowercase input); strings are lists of
characters, indices are `Int` (the C `int` indices, which can be `-1` for the
empty word's `end`), and the in-out parameters become explicit components of
the returned pairs.
-/

namespace Words

/-- A character of the 26-letter alphabet, as the C code's `str[i] - 'a'`. -/
abbrev Char26 := Fin 26

/-- A lowercase word: the sequence of `str[i] - 'a'` values. -/
abbrev Word := List Char26

/-- A trie node: `isLeaf` flag plus the 26-slot child array `character`
(`NULL` = `none`).  Mirrors `struct Trie` in `words.c`. -/
inductive Trie where
  | mk (isLeaf : Bool) (character : Char26 → Option Trie)

/-- The `isLeaf` field of a node. -/
def Trie.isLeaf : Trie → Bool
  | .mk b _ => b

/-- The `character` child array of a node. -/
def Trie.character : Trie → Char26 → Option Trie
  | .mk _ ch => ch

/-- `create` (called on `NULL`): a fresh node with `isLeaf = false` and all 26
child slots `NULL`. -/
def create : Trie :=
  .mk false (fun _ => none)

/-- `insertWord(node, str)`: walks/creates one child edge per character; when
the string is exhausted it sets `isLeaf = true` on the final node.  The C code
takes the existing edge, or a `create`d node if the slot was `NULL`, inserts
the tail into it, and stores the result back into the slot. -/
def insertWord : Trie → Word → Trie
  | node, [] => .mk true node.character
  | node, c :: cs =>
      .mk node.isLeaf
        (Function.update node.character c
          (some (insertWord ((node.character c).getD create) cs)))

/-- `str[i]` for an `Int` index: the C code only reads indices inside the
caller-supplied range, so the default value is never relevant for the
properties below. -/
def charAt (str : Word) (i : Int) : Char26 :=
  str.getD i.toNat 0

/-- The `for (i=start; i<=end; i++)` loop of `isLeafBreak`, with the remaining
iteration count `e + 1 - i` as structural fuel.  `subnode` is the current node,
`i` the current position, `mid` the in-out threshold.  Returns the pair
(result, final value of `mid`).  At loop exit (fuel 0, i.e. `i = e + 1`) the C
code sets `mid = end` and returns `subnode->isLeaf`. -/
def lbLoop (str : Word) (e : Int) : Nat → Trie → Int → Int → Bool × Int
  | 0, subnode, _, _ => (subnode.isLeaf, e)
  | n + 1, subnode, i, mid =>
      match subnode.character (charAt str i) with
      | none => (false, mid)
      | some child =>
          if mid ≤ i && child.isLeaf then (true, i)
          else lbLoop str e n child (i + 1) mid

/-- `isLeafBreak(node, str, start, end, mid)`: walk `str[start..end]` from
`node`; fail on a missing edge (leaving `mid` unchanged), succeed at the first
position `i ≥ mid` whose node is terminal (setting `mid = i`), and otherwise
return whether the final node is terminal with `mid = end`. -/
def isLeafBreak (node : Trie) (str : Word) (start e mid : Int) : Bool × Int :=
  lbLoop str e (e + 1 - start).toNat node start mid

/-- The `for (int i = start; i <= end; i++)` loop of `concatWord`, starting at
loop position `i`.  The C code passes the loop variable `i` by reference as
`isLeafBreak`'s `mid`, so after the call the loop variable holds the returned
`mid` (`r.2` below); the `i == end` test, the recursive call and the `i++`
all use that updated value.  The recursive call `concatWord(node, str, i+1,
end, bPartTwo)` is inlined through `concatWord`'s `start > end` guard (see
`concatWord` below, which makes this exact). -/
def concatWordAux (node : Trie) (str : Word) (start e i : Int) : Bool × Nat :=
  if h : i ≤ e then
    let r := isLeafBreak node str start e i
    if r.2 = e then (r.1, if r.1 then 1 else 0)
    else
      let r2 := if e < r.2 + 1 then ((false : Bool), (0 : Nat))
                else concatWordAux node str (r.2 + 1) e (r.2 + 1)
      if r.1 && r2.1 then (true, 1 + r2.2)
      else concatWordAux node str start e (r.2 + 1)
  else (false, 0)
termination_by (e + 1 - i).toNat
decreasing_by
  all_goals
    have key : ∀ (m : Nat) (t : Trie) (j : Int), ((j : Int) + m ≤ e + 1 ∨ m = 0) →
        i ≤ (lbLoop str e m t j i).2 ∧ (lbLoop str e m t j i).2 ≤ e := by
      intro m
      induction m with
      | zero => intro t j _; exact ⟨h, le_refl e⟩
      | succ m ih =>
          intro t j hle
          have hle' : (j : Int) + ((m : Int) + 1) ≤ e + 1 := by
            rcases hle with hle | hle
            · push_cast at hle; omega
            · omega
          simp only [lbLoop]
          cases t.character (charAt str j) with
          | none => exact ⟨le_refl i, h⟩
          | some child =>
              dsimp only
              by_cases hg : (decide (i ≤ j) && child.isLeaf) = true
              · rw [if_pos hg]
                exact ⟨of_decide_eq_true ((Bool.and_eq_true _ _).mp hg).1,
                  by omega⟩
              · rw [if_neg hg]
                exact ih child (j + 1) (by left; omega)
    have hb : i ≤ (isLeafBreak node str start e i).2 ∧
        (isLeafBreak node str start e i).2 ≤ e := by
      unfold isLeafBreak
      by_cases hs : start ≤ e + 1
      · exact key _ node start (by left; omega)
      · have h0 : (e + 1 - start).toNat = 0 := by omega
        rw [h0]
        exact key 0 node start (by right; rfl)
    have hr : r.2 = (isLeafBreak node str start e i).2 := rfl
    omega

/-- `concatWord(node, str, start, end, result)`: returns the pair
(`result`, return value `cntWords`).  Validates `start > end` (empty range),
then runs the loop from `i = start`. -/
def concatWord (node : Trie) (str : Word) (start e : Int) : Bool × Nat :=
  if e < start then (false, 0) else concatWordAux node str start e start

/-- The loop of the segmentation procedure exactly as the specification
states it: the candidate split point `i` is a plain loop variable (it is NOT
updated by the `findBreak` query; only the boolean `firstPieceFound` is kept),
the `i == end` test and the recursive call at `i + 1` use that plain `i`, and
iteration continues with `i + 1`.  The recursive call is inlined through the
spec's own `start > end` precondition check. -/
def specSegLoop (node : Trie) (str : Word) (start e i : Int) : Bool × Nat :=
  if h : i ≤ e then
    let firstPieceFound := (isLeafBreak node str start e i).1
    if i = e then (firstPieceFound, if firstPieceFound then 1 else 0)
    else
      let r2 := if e < i + 1 then ((false : Bool), (0 : Nat))
                else specSegLoop node str (i + 1) e (i + 1)
      if firstPieceFound && r2.1 then (true, 1 + r2.2)
      else specSegLoop node str start e (i + 1)
  else (false, 0)
termination_by (e + 1 - i).toNat
decreasing_by
  · omega
  · omega

/-- `canSegment` as the specification literally describes it (claim C3's
reference procedure; `specSegLoop` is its loop). -/
def specCanSegment (node : Trie) (str : Word) (start e : Int) : Bool × Nat :=
  if e < start then (false, 0) else specSegLoop node str start e start

/-- The loop of the amended specification procedure: after the `findBreak`
query the candidate split point is advanced to the returned break position
`r.2` before the `== end` test and the recursive call, and iteration resumes
from `r.2 + 1`. -/
def specSegLoopAdv (node : Trie) (str : Word) (start e i : Int) : Bool × Nat :=
  if h : i ≤ e then
    let r := isLeafBreak node str start e i
    if r.2 = e then (r.1, if r.1 then 1 else 0)
    else
      let r2 := if e < r.2 + 1 then ((false : Bool), (0 : Nat))
                else specSegLoopAdv node str (r.2 + 1) e (r.2 + 1)
      if r.1 && r2.1 then (true, 1 + r2.2)
      else specSegLoopAdv node str start e (r.2 + 1)
  else (false, 0)
termination_by (e + 1 - i).toNat
decreasing_by
  all_goals
    have key : ∀ (m : Nat) (t : Trie) (j : Int), ((j : Int) + m ≤ e + 1 ∨ m = 0) →
        i ≤ (lbLoop str e m t j i).2 ∧ (lbLoop str e m t j i).2 ≤ e := by
      intro m
      induction m with
      | zero => intro t j _; exact ⟨h, le_refl e⟩
      | succ m ih =>
          intro t j hle
          have hle' : (j : Int) + ((m : Int) + 1) ≤ e + 1 := by
            rcases hle with hle | hle
            · push_cast at hle; omega
            · omega
          simp only [lbLoop]
          cases t.character (charAt str j) with
          | none => exact ⟨le_refl i, h⟩
          | some child =>
              dsimp only
              by_cases hg : (decide (i ≤ j) && child.isLeaf) = true
              · rw [if_pos hg]
                exact ⟨of_decide_eq_true ((Bool.and_eq_true _ _).mp hg).1,
                  by omega⟩
              · rw [if_neg hg]
                exact ih child (j + 1) (by left; omega)
    have hb : i ≤ (isLeafBreak node str start e i).2 ∧
        (isLeafBreak node str start e i).2 ≤ e := by
      unfold isLeafBreak
      by_cases hs : start ≤ e + 1
      · exact key _ node start (by left; omega)
      · have h0 : (e + 1 - start).toNat = 0 := by omega
        rw [h0]
        exact key 0 node start (by right; rfl)
    have hr : r.2 = (isLeafBreak node str start e i).2 := rfl
    omega

/-- The segmentation procedure of the specification amended so that the
candidate split point is advanced to `findBreak`'s returned break position
(claim C3's amended reference procedure). -/
def specCanSegmentAdv (node : Trie) (str : Word) (start e : Int) : Bool × Nat :=
  if e < start then (false, 0) else specSegLoopAdv node str start e start

/-! ### Paths in the trie -/

/-- Follow the edges spelled by a word, returning the node reached (the
"node reachable from the root via the edge sequence spelling S"). -/
def walk : Trie → Word → Option Trie
  | t, [] => some t
  | t, c :: cs =>
      match t.character c with
      | none => none
      | some child => walk child cs

/-- The `isLeaf` flag of an optional node (`none` = no node = not terminal). -/
def leafB : Option Trie → Bool
  | none => false
  | some t => t.isLeaf

/-- Follow `n` edges spelled by `str[i], str[i+1], ...` starting at node `t`:
the node reached after consuming `n` characters from position `i`. -/
def walkIdx : Trie → Word → Int → Nat → Option Trie
  | t, _, _, 0 => some t
  | t, str, i, n + 1 =>
      match t.character (charAt str i) with
      | none => none
      | some child => walkIdx child str (i + 1) n

/-- The `n` characters of `str` starting at position `i`. -/
def extractN (str : Word) : Int → Nat → Word
  | _, 0 => []
  | i, n + 1 => charAt str i :: extractN str (i + 1) n

/-- The substring `str[s..p]` (inclusive), as a word. -/
def extractI (str : Word) (s p : Int) : Word :=
  extractN str s (p + 1 - s).toNat

/-- Whether the node reached from `t` after consuming `str[i..p]` exists and
is terminal (for `p = i - 1` this is `t` itself). -/
def leafAt (t : Trie) (str : Word) (i p : Int) : Bool :=
  leafB (walkIdx t str i (p + 1 - i).toNat)

/-! ### The dictionary loader and driver -/

/-- `ReadWordFile`'s trie construction: insert every word of the input, in
order, into a `create`d root. -/
def buildTrie (ws : List Word) : Trie :=
  ws.foldl insertWord create

/-- The driver's per-word test: `found && cntConcat > 1` for
`concatWord(root, w, 0, size-1, found)`. -/
def qualifies (root : Trie) (w : Word) : Bool :=
  (concatWord root w 0 ((w.length : Int) - 1)).1 &&
    decide (1 < (concatWord root w 0 ((w.length : Int) - 1)).2)

/-- The distinct word lengths present in the input, in decreasing order: the
reverse iteration of `main`'s `set<size_t> LengthSet`. -/
def lengthsDesc (ws : List Word) : List Nat :=
  (List.range ((ws.map List.length).foldr max 0 + 1)).reverse.filter
    (fun n => (ws.map List.length).contains n)

/-- `main`'s nested output loop: for each length (longest first), emit the
qualifying words of that length in the bucket's stored order. -/
def driverLoop (root : Trie) (buckets : Nat → List Word) : List Nat → List Word
  | [] => []
  | len :: rest => (buckets len).filter (qualifies root) ++ driverLoop root buckets rest

/-- The full sequence of words `main` reports (writes to the output file),
for input word list `ws`: buckets are `wordsWithSameLen` (the input words of
each length, in input order). -/
def mainOutput (ws : List Word) : List Word :=
  driverLoop (buildTrie ws) (fun len => ws.filter (fun w => w.length = len))
    (lengthsDesc ws)

/-! ### Segmentability predicates -/

/-- An ordered partition of the range `str[start..e]` into exactly `n`
contiguous pieces, each of which ends at a terminal node of the trie `t`
(i.e. each piece is a word stored in the trie). -/
inductive SegNT (t : Trie) (str : Word) (e : Int) : Int → Nat → Prop
  | last (start : Int) : start ≤ e → leafAt t str start e = true →
      SegNT t str e start 1
  | cons (start p : Int) (n : Nat) : start ≤ p → p < e →
      leafAt t str start p = true → SegNT t str e (p + 1) n →
      SegNT t str e start (n + 1)

/-- An ordered partition of the range `str[start..e]` into one or more
contiguous substrings, each of which is a member of the dictionary `ws`. -/
inductive SegD (ws : List Word) (str : Word) (e : Int) : Int → Prop
  | last (start : Int) : start ≤ e → extractI str start e ∈ ws →
      SegD ws str e start
  | cons (start p : Int) : start ≤ p → p < e → extractI str start p ∈ ws →
      SegD ws str e (p + 1) → SegD ws str e start

/-- A dictionary used as a concrete test input: the words "ab" (`[0, 1]`) and
"bc" (`[1, 2]`). -/
def cexDict : List Word := [[0, 1], [1, 2]]

/-- A concrete test word: "abc" (`[0, 1, 2]`). -/
def cexWord : Word := [0, 1, 2]

/-! ### Basic unfolding lemmas for `concatWord` -/

theorem concatWordAux_neg (node : Trie) (str : Word) (start e i : Int)
    (h : e < i) : concatWordAux node str start e i = (false, 0) := by
  rw [concatWordAux]
  simp [not_le.mpr h]

theorem concatWordAux_unfold (node : Trie) (str : Word) (start e i : Int)
    (h : i ≤ e) :
    concatWordAux node str start e i =
      (if (isLeafBreak node str start e i).2 = e then
        ((isLeafBreak node str start e i).1,
          if (isLeafBreak node str start e i).1 then 1 else 0)
      else if (isLeafBreak node str start e i).1 &&
          (concatWord node str ((isLeafBreak node str start e i).2 + 1) e).1 then
        (true, 1 + (concatWord node str ((isLeafBreak node str start e i).2 + 1) e).2)
      else concatWordAux node str start e ((isLeafBreak node str start e i).2 + 1)) := by
  conv_lhs => rw [concatWordAux]
  rw [dif_pos h]
  rfl

theorem concatWord_pos (node : Trie) (str : Word) (start e : Int)
    (h : start ≤ e) :
    concatWord node str start e = concatWordAux node str start e start := by
  rw [concatWord, if_neg (not_lt.mpr h)]

theorem lbLoop_snd_bounds (str : Word) (e : Int) :
    ∀ (n : Nat) (t : Trie) (i mid : Int), mid ≤ e → (i + n ≤ e + 1 ∨ n = 0) →
      mid ≤ (lbLoop str e n t i mid).2 ∧ (lbLoop str e n t i mid).2 ≤ e := by
  intro n
  induction n with
  | zero => intro t i mid hm _; exact ⟨hm, le_refl e⟩
  | succ n ih =>
      intro t i mid hm hle
      have hle' : i + (n + 1 : Nat) ≤ e + 1 := by omega
      simp only [lbLoop]
      cases h : t.character (charAt str i) with
      | none => exact ⟨le_refl mid, hm⟩
      | some child =>
          dsimp only
          by_cases hg : (decide (mid ≤ i) && child.isLeaf) = true
          · rw [if_pos hg]
            have h1 : mid ≤ i := of_decide_eq_true ((Bool.and_eq_true _ _).mp hg).1
            refine ⟨h1, ?_⟩
            push_cast at hle'; omega
          · rw [if_neg hg]
            exact ih child (i + 1) mid hm (by left; push_cast at hle' ⊢; omega)

theorem isLeafBreak_snd_bounds (node : Trie) (str : Word) (start e mid : Int)
    (hm : mid ≤ e) :
    mid ≤ (isLeafBreak node str start e mid).2 ∧
      (isLeafBreak node str start e mid).2 ≤ e := by
  unfold isLeafBreak
  by_cases h : start ≤ e + 1
  · exact lbLoop_snd_bounds str e _ node start mid hm (by left; omega)
  · have : (e + 1 - start).toNat = 0 := by omega
    rw [this]
    exact lbLoop_snd_bounds str e 0 node start mid hm (by right; rfl)

/-! ### Lemmas on paths -/

theorem walkIdx_none_step {t : Trie} {str : Word} {i : Int}
    (h : t.character (charAt str i) = none) (n : Nat) :
    walkIdx t str i (n + 1) = none := by
  simp [walkIdx, h]

theorem walkIdx_some_step {t child : Trie} {str : Word} {i : Int}
    (h : t.character (charAt str i) = some child) (n : Nat) :
    walkIdx t str i (n + 1) = walkIdx child str (i + 1) n := by
  simp [walkIdx, h]

theorem leafAt_self (t : Trie) (str : Word) (i p : Int) (h : p + 1 ≤ i) :
    leafAt t str i p = t.isLeaf := by
  unfold leafAt
  have h0 : (p + 1 - i).toNat = 0 := by omega
  rw [h0]
  rfl

theorem leafAt_none {t : Trie} {str : Word} {i : Int}
    (h : t.character (charAt str i) = none) (p : Int) (hip : i ≤ p) :
    leafAt t str i p = false := by
  unfold leafAt
  have h1 : (p + 1 - i).toNat = (p - i).toNat + 1 := by omega
  rw [h1, walkIdx_none_step h]
  rfl

theorem leafAt_some {t child : Trie} {str : Word} {i : Int}
    (h : t.character (charAt str i) = some child) (p : Int) (hip : i ≤ p) :
    leafAt t str i p = leafAt child str (i + 1) p := by
  unfold leafAt
  have h1 : (p + 1 - i).toNat = (p - i).toNat + 1 := by omega
  have h2 : (p + 1 - (i + 1)).toNat = (p - i).toNat := by omega
  rw [h1, h2, walkIdx_some_step h]

theorem leafAt_child_isLeaf {t child : Trie} {str : Word} {i : Int}
    (h : t.character (charAt str i) = some child) :
    leafAt t str i i = child.isLeaf := by
  rw [leafAt_some h i le_rfl, leafAt_self child str (i + 1) i (by omega)]

/-! ### Characterization of the `isLeafBreak` loop -/

theorem lbLoop_succ_none {str : Word} {e : Int} {n : Nat} {t : Trie}
    {i mid : Int} (h : t.character (charAt str i) = none) :
    lbLoop str e (n + 1) t i mid = (false, mid) := by
  simp [lbLoop, h]

theorem lbLoop_succ_fire {str : Word} {e : Int} {n : Nat} {t child : Trie}
    {i mid : Int} (h : t.character (charAt str i) = some child)
    (h1 : mid ≤ i) (h2 : child.isLeaf = true) :
    lbLoop str e (n + 1) t i mid = (true, i) := by
  simp [lbLoop, h, h1, h2]

theorem lbLoop_succ_step {str : Word} {e : Int} {n : Nat} {t child : Trie}
    {i mid : Int} (h : t.character (charAt str i) = some child)
    (hg : ¬(mid ≤ i ∧ child.isLeaf = true)) :
    lbLoop str e (n + 1) t i mid = lbLoop str e n child (i + 1) mid := by
  have hng : ¬((decide (mid ≤ i) && child.isLeaf) = true) := by
    simpa using hg
  simp only [lbLoop, h]
  rw [if_neg hng]

theorem lbLoop_first (str : Word) (e : Int) :
    ∀ (n : Nat) (t : Trie) (i mid p0 : Int), (e + 1 - i).toNat = n →
      i ≤ p0 → p0 ≤ e → mid ≤ p0 → leafAt t str i p0 = true →
      (∀ q, i ≤ q → q < p0 → ¬(mid ≤ q ∧ leafAt t str i q = true)) →
      lbLoop str e n t i mid = (true, p0) := by
  intro n
  induction n with
  | zero => intro t i mid p0 hn hip hpe hmp _ _; omega
  | succ n ih =>
      intro t i mid p0 hn hip hpe hmp hleaf hmin
      simp only [lbLoop]
      cases hc : t.character (charAt str i) with
      | none =>
          rw [leafAt_none hc p0 hip] at hleaf
          exact absurd hleaf (by simp)
      | some child =>
          dsimp only
          by_cases hip0 : i = p0
          · subst hip0
            have hcl : child.isLeaf = true := by
              rw [← leafAt_child_isLeaf hc]; exact hleaf
            rw [if_pos (by simp [hcl, hmp])]
          · have hlt : i < p0 := lt_of_le_of_ne hip hip0
            have hng : ¬((decide (mid ≤ i) && child.isLeaf) = true) := by
              intro hg
              rcases Bool.and_eq_true _ _ |>.mp hg with ⟨h1, h2⟩
              exact hmin i le_rfl hlt
                ⟨of_decide_eq_true h1, by rw [leafAt_child_isLeaf hc]; exact h2⟩
            rw [if_neg hng]
            refine ih child (i + 1) mid p0 (by omega) (by omega) hpe hmp ?_ ?_
            · rw [← leafAt_some hc p0 hip]; exact hleaf
            · intro q h1 h2 hcontra
              refine hmin q (by omega) h2 ⟨hcontra.1, ?_⟩
              rw [leafAt_some hc q (by omega)]; exact hcontra.2

theorem lbLoop_nohit (str : Word) (e : Int) :
    ∀ (n : Nat) (t : Trie) (i mid : Int), (e + 1 - i).toNat = n →
      i ≤ e + 1 → mid ≤ e →
      (∀ p, i - 1 ≤ p → p ≤ e → mid ≤ p → leafAt t str i p = false) →
      (lbLoop str e n t i mid).1 = false := by
  intro n
  induction n with
  | zero =>
      intro t i mid hn hi1 hme H
      have hie : i = e + 1 := by omega
      subst hie
      have := H e (by omega) le_rfl hme
      rw [leafAt_self t str (e + 1) e (by omega)] at this
      simpa [lbLoop] using this
  | succ n ih =>
      intro t i mid hn hi1 hme H
      have hie : i ≤ e := by omega
      simp only [lbLoop]
      cases hc : t.character (charAt str i) with
      | none => rfl
      | some child =>
          dsimp only
          have hng : ¬((decide (mid ≤ i) && child.isLeaf) = true) := by
            intro hg
            rcases Bool.and_eq_true _ _ |>.mp hg with ⟨h1, h2⟩
            have := H i (by omega) hie (of_decide_eq_true h1)
            rw [leafAt_child_isLeaf hc] at this
            rw [this] at h2
            exact Bool.false_ne_true h2
          rw [if_neg hng]
          refine ih child (i + 1) mid (by omega) (by omega) hme ?_
          intro p h1 h2 h3
          rw [← leafAt_some hc p (by omega)]
          exact H p (by omega) h2 h3

theorem lbLoop_sound (str : Word) (e : Int) :
    ∀ (n : Nat) (t : Trie) (i mid : Int), (e + 1 - i).toNat = n → i ≤ e + 1 →
      (lbLoop str e n t i mid).1 = true →
      leafAt t str i ((lbLoop str e n t i mid).2) = true ∧
        i - 1 ≤ (lbLoop str e n t i mid).2 ∧ (lbLoop str e n t i mid).2 ≤ e := by
  intro n
  induction n with
  | zero =>
      intro t i mid hn hi1 htrue
      have hie : i = e + 1 := by omega
      subst hie
      simp only [lbLoop] at htrue ⊢
      exact ⟨by rw [leafAt_self t str (e + 1) e (by omega)]; exact htrue,
        by omega, le_rfl⟩
  | succ n ih =>
      intro t i mid hn hi1 htrue
      have hie : i ≤ e := by omega
      cases hc : t.character (charAt str i) with
      | none =>
          rw [lbLoop_succ_none hc] at htrue
          exact absurd htrue (by simp)
      | some child =>
          by_cases hg : mid ≤ i ∧ child.isLeaf = true
          · rw [lbLoop_succ_fire hc hg.1 hg.2] at htrue ⊢
            exact ⟨by rw [leafAt_child_isLeaf hc]; exact hg.2, by omega, hie⟩
          · rw [lbLoop_succ_step hc hg] at htrue ⊢
            obtain ⟨ha, hb, hcub⟩ := ih child (i + 1) mid (by omega) (by omega) htrue
            refine ⟨?_, by omega, hcub⟩
            rw [leafAt_some hc _ (by omega)]
            exact ha

theorem lbLoop_true_mid (str : Word) (e : Int) :
    ∀ (n : Nat) (t : Trie) (i mid : Int),
      (lbLoop str e n t i mid).1 = true →
      mid ≤ (lbLoop str e n t i mid).2 ∨ (lbLoop str e n t i mid).2 = e := by
  intro n
  induction n with
  | zero => intro t i mid _; right; rfl
  | succ n ih =>
      intro t i mid htrue
      cases hc : t.character (charAt str i) with
      | none =>
          rw [lbLoop_succ_none hc] at htrue
          exact absurd htrue (by simp)
      | some child =>
          by_cases hg : mid ≤ i ∧ child.isLeaf = true
          · rw [lbLoop_succ_fire hc hg.1 hg.2] at htrue ⊢
            left
            exact hg.1
          · rw [lbLoop_succ_step hc hg] at htrue ⊢
            exact ih child (i + 1) mid htrue

theorem lbLoop_missing (str : Word) (e : Int) :
    ∀ (n : Nat) (t : Trie) (i mid j : Int), (e + 1 - i).toNat = n →
      i ≤ j → j ≤ e → walkIdx t str i (j + 1 - i).toNat = none →
      (∀ q, i ≤ q → q < j → ¬(mid ≤ q ∧ leafAt t str i q = true)) →
      lbLoop str e n t i mid = (false, mid) := by
  intro n
  induction n with
  | zero => intro t i mid j hn hij hje _ _; omega
  | succ n ih =>
      intro t i mid j hn hij hje hnone hmin
      simp only [lbLoop]
      cases hc : t.character (charAt str i) with
      | none => rfl
      | some child =>
          dsimp only
          have hij' : i < j := by
            rcases lt_or_eq_of_le hij with h | h
            · exact h
            · exfalso
              subst h
              have h1 : (i + 1 - i).toNat = 1 := by omega
              rw [h1, walkIdx_some_step hc 0] at hnone
              simp [walkIdx] at hnone
          have hng : ¬((decide (mid ≤ i) && child.isLeaf) = true) := by
            intro hg
            rcases Bool.and_eq_true _ _ |>.mp hg with ⟨h1, h2⟩
            exact hmin i le_rfl hij'
              ⟨of_decide_eq_true h1, by rw [leafAt_child_isLeaf hc]; exact h2⟩
          rw [if_neg hng]
          refine ih child (i + 1) mid j (by omega) (by omega) hje ?_ ?_
          · have h1 : (j + 1 - i).toNat = (j + 1 - (i + 1)).toNat + 1 := by omega
            rw [h1, walkIdx_some_step hc] at hnone
            exact hnone
          · intro q h1 h2 hcontra
            refine hmin q (by omega) h2 ⟨hcontra.1, ?_⟩
            rw [leafAt_some hc q (by omega)]
            exact hcontra.2

theorem lbLoop_fullwalk (str : Word) (e : Int) :
    ∀ (n : Nat) (t : Trie) (i mid : Int), (e + 1 - i).toNat = n → i ≤ e + 1 →
      (walkIdx t str i (e + 1 - i).toNat).isSome = true →
      (∀ q, i ≤ q → q < e → ¬(mid ≤ q ∧ leafAt t str i q = true)) →
      leafAt t str i e = false →
      lbLoop str e n t i mid = (false, e) := by
  intro n
  induction n with
  | zero =>
      intro t i mid hn hi1 _ _ hnt
      have hie : i = e + 1 := by omega
      subst hie
      rw [leafAt_self t str (e + 1) e (by omega)] at hnt
      simp [lbLoop, hnt]
  | succ n ih =>
      intro t i mid hn hi1 hsome hmin hnt
      have hie : i ≤ e := by omega
      simp only [lbLoop]
      cases hc : t.character (charAt str i) with
      | none =>
          exfalso
          have h1 : (e + 1 - i).toNat = (e - i).toNat + 1 := by omega
          rw [h1, walkIdx_none_step hc] at hsome
          simp at hsome
      | some child =>
          dsimp only
          have hng : ¬((decide (mid ≤ i) && child.isLeaf) = true) := by
            intro hg
            rcases Bool.and_eq_true _ _ |>.mp hg with ⟨h1, h2⟩
            rcases lt_or_eq_of_le hie with h | h
            · exact hmin i le_rfl h
                ⟨of_decide_eq_true h1, by rw [leafAt_child_isLeaf hc]; exact h2⟩
            · subst h
              rw [leafAt_child_isLeaf hc] at hnt
              rw [hnt] at h2
              exact Bool.false_ne_true h2
          rw [if_neg hng]
          refine ih child (i + 1) mid (by omega) (by omega) ?_ ?_ ?_
          · have h1 : (e + 1 - i).toNat = (e + 1 - (i + 1)).toNat + 1 := by omega
            rw [h1, walkIdx_some_step hc] at hsome
            exact hsome
          · intro q h1 h2 hcontra
            refine hmin q (by omega) h2 ⟨hcontra.1, ?_⟩
            rw [leafAt_some hc q (by omega)]
            exact hcontra.2
          · rw [← leafAt_some hc e hie]
            exact hnt

theorem lbLoop_midbig (str : Word) (e : Int) :
    ∀ (n : Nat) (t : Trie) (i mid : Int), (e + 1 - i).toNat = n → i ≤ e + 1 →
      e < mid → (walkIdx t str i (e + 1 - i).toNat).isSome = true →
      lbLoop str e n t i mid = (leafAt t str i e, e) := by
  intro n
  induction n with
  | zero =>
      intro t i mid hn hi1 _ _
      have hie : i = e + 1 := by omega
      subst hie
      rw [leafAt_self t str (e + 1) e (by omega)]
      rfl
  | succ n ih =>
      intro t i mid hn hi1 hem hsome
      have hie : i ≤ e := by omega
      simp only [lbLoop]
      cases hc : t.character (charAt str i) with
      | none =>
          exfalso
          have h1 : (e + 1 - i).toNat = (e - i).toNat + 1 := by omega
          rw [h1, walkIdx_none_step hc] at hsome
          simp at hsome
      | some child =>
          dsimp only
          have hng : ¬((decide (mid ≤ i) && child.isLeaf) = true) := by
            intro hg
            have h1 := of_decide_eq_true (Bool.and_eq_true _ _ |>.mp hg).1
            omega
          rw [if_neg hng]
          rw [leafAt_some hc e hie]
          refine ih child (i + 1) mid (by omega) (by omega) hem ?_
          have h1 : (e + 1 - i).toNat = (e + 1 - (i + 1)).toNat + 1 := by omega
          rw [h1, walkIdx_some_step hc] at hsome
          exact hsome

/-! ### `isLeafBreak` characterization -/

theorem isLeafBreak_first {node : Trie} {str : Word} {start e mid p0 : Int}
    (hip : start ≤ p0) (hpe : p0 ≤ e) (hmp : mid ≤ p0)
    (hleaf : leafAt node str start p0 = true)
    (hmin : ∀ q, start ≤ q → q < p0 → ¬(mid ≤ q ∧ leafAt node str start q = true)) :
    isLeafBreak node str start e mid = (true, p0) :=
  lbLoop_first str e _ node start mid p0 rfl hip hpe hmp hleaf hmin

theorem isLeafBreak_nohit {node : Trie} {str : Word} {start e mid : Int}
    (h1 : start ≤ e + 1) (hme : mid ≤ e)
    (H : ∀ p, start - 1 ≤ p → p ≤ e → mid ≤ p → leafAt node str start p = false) :
    (isLeafBreak node str start e mid).1 = false :=
  lbLoop_nohit str e _ node start mid rfl h1 hme H

theorem isLeafBreak_sound {node : Trie} {str : Word} {start e mid : Int}
    (h1 : start ≤ e + 1) (htrue : (isLeafBreak node str start e mid).1 = true) :
    leafAt node str start ((isLeafBreak node str start e mid).2) = true ∧
      start - 1 ≤ (isLeafBreak node str start e mid).2 ∧
      (isLeafBreak node str start e mid).2 ≤ e :=
  lbLoop_sound str e _ node start mid rfl h1 htrue

theorem isLeafBreak_true_mid {node : Trie} {str : Word} {start e mid : Int}
    (htrue : (isLeafBreak node str start e mid).1 = true) :
    mid ≤ (isLeafBreak node str start e mid).2 ∨
      (isLeafBreak node str start e mid).2 = e :=
  lbLoop_true_mid str e _ node start mid htrue

theorem isLeafBreak_missing {node : Trie} {str : Word} {start e mid j : Int}
    (hij : start ≤ j) (hje : j ≤ e)
    (hnone : walkIdx node str start (j + 1 - start).toNat = none)
    (hmin : ∀ q, start ≤ q → q < j → ¬(mid ≤ q ∧ leafAt node str start q = true)) :
    isLeafBreak node str start e mid = (false, mid) :=
  lbLoop_missing str e _ node start mid j rfl hij hje hnone hmin

theorem isLeafBreak_fullwalk {node : Trie} {str : Word} {start e mid : Int}
    (h1 : start ≤ e + 1)
    (hsome : (walkIdx node str start (e + 1 - start).toNat).isSome = true)
    (hmin : ∀ q, start ≤ q → q < e → ¬(mid ≤ q ∧ leafAt node str start q = true))
    (hnt : leafAt node str start e = false) :
    isLeafBreak node str start e mid = (false, e) :=
  lbLoop_fullwalk str e _ node start mid rfl h1 hsome hmin hnt

theorem isLeafBreak_midbig {node : Trie} {str : Word} {start e mid : Int}
    (h1 : start ≤ e + 1) (hem : e < mid)
    (hsome : (walkIdx node str start (e + 1 - start).toNat).isSome = true) :
    isLeafBreak node str start e mid = (leafAt node str start e, e) :=
  lbLoop_midbig str e _ node start mid rfl h1 hem hsome

/-! ### Insertion and paths (the trie shape invariant) -/

theorem walk_create (S : Word) :
    walk create S = if S = [] then some create else none := by
  cases S with
  | nil => rfl
  | cons c cs => simp [walk, create, Trie.character]

theorem leafB_walk_create (S : Word) : leafB (walk create S) = false := by
  rw [walk_create]
  by_cases h : S = [] <;> simp [h, leafB, create, Trie.isLeaf]

theorem character_insertWord_nil (t : Trie) :
    (insertWord t []).character = t.character := by
  cases t; rfl

theorem isLeaf_insertWord_nil (t : Trie) : (insertWord t []).isLeaf = true := by
  cases t; rfl

theorem character_insertWord_cons (t : Trie) (c : Char26) (cs : Word) :
    (insertWord t (c :: cs)).character =
      Function.update t.character c
        (some (insertWord ((t.character c).getD create) cs)) := by
  cases t; rfl

theorem isLeaf_insertWord_cons (t : Trie) (c : Char26) (cs : Word) :
    (insertWord t (c :: cs)).isLeaf = t.isLeaf := by
  cases t; rfl

theorem walk_insert_isSome (w : Word) :
    ∀ (t : Trie) (S : Word),
      (walk (insertWord t w) S).isSome = true ↔
        (walk t S).isSome = true ∨ S <+: w := by
  induction w with
  | nil =>
      intro t S
      cases S with
      | nil => simp [walk]
      | cons d S' =>
          simp only [walk, character_insertWord_nil]
          constructor
          · intro h; left; exact h
          · intro h
            rcases h with h | h
            · exact h
            · exact absurd h (by simp)
  | cons c cs ih =>
      intro t S
      cases S with
      | nil => simp [walk]
      | cons d S' =>
          simp only [walk, character_insertWord_cons]
          by_cases hdc : d = c
          · subst hdc
            rw [Function.update_same]
            cases hc : t.character d with
            | none =>
                simp only [hc, Option.getD]
                rw [ih create S']
                constructor
                · intro h
                  rcases h with h | h
                  · right
                    rw [walk_create] at h
                    by_cases hS : S' = []
                    · subst hS
                      exact List.cons_prefix_cons.mpr ⟨rfl, List.nil_prefix⟩
                    · rw [if_neg hS] at h; simp at h
                  · right; exact List.cons_prefix_cons.mpr ⟨rfl, h⟩
                · intro h
                  rcases h with h | h
                  · simp at h
                  · right
                    exact (List.cons_prefix_cons.mp h).2
            | some u =>
                simp only [hc, Option.getD]
                rw [ih u S']
                constructor
                · intro h
                  rcases h with h | h
                  · left; exact h
                  · right; exact List.cons_prefix_cons.mpr ⟨rfl, h⟩
                · intro h
                  rcases h with h | h
                  · left; exact h
                  · right; exact (List.cons_prefix_cons.mp h).2
          · rw [Function.update_noteq hdc]
            constructor
            · intro h; left; exact h
            · intro h
              rcases h with h | h
              · exact h
              · exact absurd ((List.cons_prefix_cons.mp h).1) hdc

theorem leaf_walk_insert (w : Word) :
    ∀ (t : Trie) (S : Word),
      leafB (walk (insertWord t w) S) = true ↔
        leafB (walk t S) = true ∨ S = w := by
  induction w with
  | nil =>
      intro t S
      cases S with
      | nil =>
          simp only [walk, leafB, isLeaf_insertWord_nil]
          simp
      | cons d S' =>
          simp only [walk, character_insertWord_nil]
          constructor
          · intro h; left; exact h
          · intro h
            rcases h with h | h
            · exact h
            · exact absurd h (by simp)
  | cons c cs ih =>
      intro t S
      cases S with
      | nil =>
          simp only [walk, leafB, isLeaf_insertWord_cons]
          simp
      | cons d S' =>
          simp only [walk, character_insertWord_cons]
          by_cases hdc : d = c
          · subst hdc
            rw [Function.update_same]
            cases hc : t.character d with
            | none =>
                simp only [hc, Option.getD]
                rw [ih create S']
                rw [leafB_walk_create]
                constructor
                · intro h
                  rcases h with h | h
                  · exact absurd h (by simp)
                  · right; rw [h]
                · intro h
                  rcases h with h | h
                  · simp [leafB] at h
                  · right; exact (List.cons_eq_cons.mp h).2
            | some u =>
                simp only [hc, Option.getD]
                rw [ih u S']
                constructor
                · intro h
                  rcases h with h | h
                  · left; exact h
                  · right; rw [h]
                · intro h
                  rcases h with h | h
                  · left; exact h
                  · right; exact (List.cons_eq_cons.mp h).2
          · rw [Function.update_noteq hdc]
            constructor
            · intro h; left; exact h
            · intro h
              rcases h with h | h
              · exact h
              · exact absurd (List.cons_eq_cons.mp h).1 hdc

theorem walk_build_isSome (ws : List Word) :
    ∀ (t : Trie) (S : Word),
      (walk (ws.foldl insertWord t) S).isSome = true ↔
        (walk t S).isSome = true ∨ ∃ w ∈ ws, S <+: w := by
  induction ws with
  | nil => intro t S; simp
  | cons w ws ih =>
      intro t S
      rw [List.foldl_cons, ih (insertWord t w) S, walk_insert_isSome w t S]
      simp only [List.mem_cons]
      constructor
      · rintro ((h | h) | ⟨u, hu, hp⟩)
        · left; exact h
        · right; exact ⟨w, Or.inl rfl, h⟩
        · right; exact ⟨u, Or.inr hu, hp⟩
      · rintro (h | ⟨u, hu | hu, hp⟩)
        · left; left; exact h
        · subst hu; left; right; exact hp
        · right; exact ⟨u, hu, hp⟩

theorem leaf_walk_build (ws : List Word) :
    ∀ (t : Trie) (S : Word),
      leafB (walk (ws.foldl insertWord t) S) = true ↔
        leafB (walk t S) = true ∨ S ∈ ws := by
  induction ws with
  | nil => intro t S; simp
  | cons w ws ih =>
      intro t S
      rw [List.foldl_cons, ih (insertWord t w) S, leaf_walk_insert w t S]
      simp only [List.mem_cons]
      tauto

theorem walk_buildTrie_isSome (ws : List Word) (S : Word) :
    (walk (buildTrie ws) S).isSome = true ↔ S = [] ∨ ∃ w ∈ ws, S <+: w := by
  rw [buildTrie, walk_build_isSome ws create S, walk_create]
  by_cases h : S = [] <;> simp [h]

theorem leaf_walk_buildTrie (ws : List Word) (S : Word) :
    leafB (walk (buildTrie ws) S) = true ↔ S ∈ ws := by
  rw [buildTrie, leaf_walk_build ws create S, leafB_walk_create]
  simp

/-! ### Index-based walks versus list-based walks -/

theorem walkIdx_eq_walk (str : Word) :
    ∀ (n : Nat) (t : Trie) (i : Int),
      walkIdx t str i n = walk t (extractN str i n) := by
  intro n
  induction n with
  | zero => intro t i; rfl
  | succ n ih =>
      intro t i
      show walkIdx t str i (n + 1) = walk t (charAt str i :: extractN str (i + 1) n)
      simp only [walkIdx, walk]
      cases t.character (charAt str i) with
      | none => rfl
      | some child => exact ih child (i + 1)

theorem extractN_shift (c : Char26) (cs : Word) :
    ∀ (n : Nat) (i : Int), 0 ≤ i →
      extractN (c :: cs) (i + 1) n = extractN cs i n := by
  intro n
  induction n with
  | zero => intro i _; rfl
  | succ n ih =>
      intro i hi
      show charAt (c :: cs) (i + 1) :: extractN (c :: cs) (i + 1 + 1) n =
        charAt cs i :: extractN cs (i + 1) n
      congr 1
      · unfold charAt
        have h1 : (i + 1).toNat = i.toNat + 1 := by omega
        rw [h1]
        rfl
      · exact ih (i + 1) (by omega)

theorem extractN_self : ∀ (w : Word), extractN w 0 w.length = w := by
  intro w
  induction w with
  | nil => rfl
  | cons c cs ih =>
      show charAt (c :: cs) 0 :: extractN (c :: cs) (0 + 1) cs.length = c :: cs
      rw [extractN_shift c cs cs.length 0 le_rfl]
      rw [ih]
      rfl

/-- The key dictionary correspondence: `str[s..p]` ends at a terminal node of
the built trie iff the substring `str[s..p]` is one of the inserted words. -/
theorem leafAt_buildTrie (ws : List Word) (str : Word) (s p : Int) :
    leafAt (buildTrie ws) str s p = true ↔ extractI str s p ∈ ws := by
  rw [leafAt, walkIdx_eq_walk str _ (buildTrie ws) s, ← extractI,
    leaf_walk_buildTrie]

/-! ### Soundness and completeness of `concatWord` -/

theorem segNT_first {node : Trie} {str : Word} {e s : Int} {m : Nat}
    (hseg : SegNT node str e s m) :
    ∃ p, s ≤ p ∧ p ≤ e ∧ leafAt node str s p = true ∧
      (p = e ∨ ∃ m2, SegNT node str e (p + 1) m2) := by
  cases hseg with
  | last s h1 h2 => exact ⟨e, h1, le_rfl, h2, Or.inl rfl⟩
  | cons s p n h1 h2 h3 h4 => exact ⟨p, h1, by omega, h3, Or.inr ⟨n, h4⟩⟩

theorem concatWordAux_false_iff_zero (node : Trie) (str : Word) (e : Int) :
    ∀ (n : Nat) (start i : Int), (e + 1 - i).toNat = n →
      ((concatWordAux node str start e i).1 = false ↔
        (concatWordAux node str start e i).2 = 0) := by
  intro n
  induction n using Nat.strong_induction_on with
  | _ n IH =>
      intro start i hn
      by_cases hie : i ≤ e
      · rw [concatWordAux_unfold node str start e i hie]
        have hbnd := isLeafBreak_snd_bounds node str start e i hie
        by_cases h2 : (isLeafBreak node str start e i).2 = e
        · rw [if_pos h2]
          cases hb1 : (isLeafBreak node str start e i).1 <;> simp
        · rw [if_neg h2]
          by_cases h3 : ((isLeafBreak node str start e i).1 &&
              (concatWord node str ((isLeafBreak node str start e i).2 + 1) e).1) = true
          · rw [if_pos h3]; simp
          · rw [if_neg h3]
            exact IH (e + 1 - ((isLeafBreak node str start e i).2 + 1)).toNat
              (by omega) start _ rfl
      · rw [concatWordAux_neg node str start e i (by omega)]
        simp

theorem concatWord_false_iff_zero (node : Trie) (str : Word) (start e : Int) :
    (concatWord node str start e).1 = false ↔
      (concatWord node str start e).2 = 0 := by
  by_cases h : start ≤ e
  · rw [concatWord_pos node str start e h]
    exact concatWordAux_false_iff_zero node str e _ start start rfl
  · rw [concatWord, if_pos (by omega)]
    simp

theorem concatWordAux_sound (node : Trie) (str : Word) (e : Int) :
    ∀ (n : Nat) (start i : Int), (e + 1 - i).toNat = n → start ≤ i → i ≤ e →
      (concatWordAux node str start e i).1 = true →
      SegNT node str e start (concatWordAux node str start e i).2 := by
  intro n
  induction n using Nat.strong_induction_on with
  | _ n IH =>
      intro start i hn hsi hie htrue
      rw [concatWordAux_unfold node str start e i hie] at htrue ⊢
      have hbnd := isLeafBreak_snd_bounds node str start e i hie
      by_cases h2 : (isLeafBreak node str start e i).2 = e
      · rw [if_pos h2] at htrue ⊢
        dsimp only at htrue ⊢
        have hs := isLeafBreak_sound (show start ≤ e + 1 by omega) htrue
        rw [htrue, if_pos rfl]
        exact SegNT.last start (by omega) (by rw [← h2]; exact hs.1)
      · rw [if_neg h2] at htrue ⊢
        by_cases h3 : ((isLeafBreak node str start e i).1 &&
            (concatWord node str ((isLeafBreak node str start e i).2 + 1) e).1) = true
        · rw [if_pos h3] at htrue ⊢
          dsimp only
          obtain ⟨hb1, hb2⟩ := Bool.and_eq_true _ _ |>.mp h3
          have hs := isLeafBreak_sound (show start ≤ e + 1 by omega) hb1
          have hr2e : (isLeafBreak node str start e i).2 + 1 ≤ e := by omega
          rw [concatWord_pos node str _ _ hr2e] at hb2 ⊢
          have hseg := IH (e + 1 - ((isLeafBreak node str start e i).2 + 1)).toNat
            (by omega) ((isLeafBreak node str start e i).2 + 1) _ rfl le_rfl hr2e hb2
          have hc := SegNT.cons start ((isLeafBreak node str start e i).2) _
            (by omega) (by omega) hs.1 hseg
          rwa [Nat.add_comm] at hc
        · rw [if_neg h3] at htrue ⊢
          exact IH (e + 1 - ((isLeafBreak node str start e i).2 + 1)).toNat
            (by omega) start _ rfl (by omega) (by omega) htrue

theorem concatWordAux_complete (node : Trie) (str : Word) (e : Int) :
    ∀ (n : Nat) (start i : Int), (e + 1 - i).toNat = n → start ≤ i → i ≤ e →
      (∃ p, i ≤ p ∧ p ≤ e ∧ leafAt node str start p = true ∧
        (p = e ∨ ∃ m, SegNT node str e (p + 1) m)) →
      (concatWordAux node str start e i).1 = true := by
  intro n
  induction n using Nat.strong_induction_on with
  | _ n IH =>
      intro start i hn hsi hie hex
      obtain ⟨p, hip, hpe, hleaf, hrest⟩ := hex
      have hexn : ∃ k : Nat, leafAt node str start (i + k) = true ∧ i + (k : Int) ≤ e :=
        ⟨(p - i).toNat, by
          have hpi : i + ((p - i).toNat : Int) = p := by omega
          rw [hpi]
          exact ⟨hleaf, hpe⟩⟩
      have k0 := Nat.find hexn
      have hk0 := Nat.find_spec hexn
      set p0 : Int := i + (Nat.find hexn : Int) with hp0
      have hleaf0 : leafAt node str start p0 = true := hk0.1
      have hp0e : p0 ≤ e := hk0.2
      have hip0 : i ≤ p0 := by omega
      have hmin : ∀ q, start ≤ q → q < p0 → ¬(i ≤ q ∧ leafAt node str start q = true) := by
        intro q _ hq hand
        obtain ⟨hiq, hlq⟩ := hand
        have hklt : (q - i).toNat < Nat.find hexn := by omega
        have := Nat.find_min hexn hklt
        apply this
        have hqi : i + ((q - i).toNat : Int) = q := by omega
        rw [hqi]
        exact ⟨hlq, by omega⟩
      have hfirst : isLeafBreak node str start e i = (true, p0) :=
        isLeafBreak_first (by omega) hp0e hip0 hleaf0 hmin
      rw [concatWordAux_unfold node str start e i hie, hfirst]
      dsimp only
      by_cases hp0eq : p0 = e
      · rw [if_pos hp0eq]
      · rw [if_neg hp0eq]
        have hp0lt : p0 < e := by omega
        by_cases h3 : (concatWord node str (p0 + 1) e).1 = true
        · rw [if_pos (by rw [h3]; rfl)]
        · rw [if_neg (by rw [Bool.true_and]; exact h3)]
          have hnotp0 : p ≠ p0 := by
            intro hpp0
            rcases hrest with hrest | ⟨m, hm⟩
            · exact hp0eq (by omega)
            · have hm0 : SegNT node str e (p0 + 1) m := by rwa [hpp0] at hm
              apply h3
              rw [concatWord_pos node str _ _ (by omega)]
              obtain ⟨p2, g1, g2, g3, g4⟩ := segNT_first hm0
              exact IH (e + 1 - (p0 + 1)).toNat (by omega) (p0 + 1) (p0 + 1) rfl
                le_rfl (by omega) ⟨p2, g1, g2, g3, g4⟩
          have hpgt : p0 + 1 ≤ p := by
            rcases lt_or_ge p p0 with hlt | hge
            · exact absurd ⟨hip, hleaf⟩ (hmin p (by omega) hlt)
            · omega
          exact IH (e + 1 - (p0 + 1)).toNat (by omega) start (p0 + 1) rfl
            (by omega) (by omega) ⟨p, hpgt, hpe, hleaf, hrest⟩

theorem concatWord_sound (node : Trie) (str : Word) (start e : Int)
    (htrue : (concatWord node str start e).1 = true) :
    SegNT node str e start (concatWord node str start e).2 := by
  by_cases h : start ≤ e
  · rw [concatWord_pos node str start e h] at htrue ⊢
    exact concatWordAux_sound node str e _ start start rfl le_rfl h htrue
  · rw [concatWord, if_pos (by omega)] at htrue
    exact absurd htrue (by simp)

theorem concatWord_complete {node : Trie} {str : Word} {start e : Int}
    {m : Nat} (hseg : SegNT node str e start m) :
    (concatWord node str start e).1 = true := by
  obtain ⟨p, h1, h2, h3, h4⟩ := segNT_first hseg
  have hse : start ≤ e := by omega
  rw [concatWord_pos node str start e hse]
  exact concatWordAux_complete node str e _ start start rfl le_rfl hse
    ⟨p, h1, h2, h3, h4⟩

/-! ### Dictionary-level segmentability -/

theorem segD_iff_segNT (ws : List Word) (str : Word) (e s : Int) :
    SegD ws str e s ↔ ∃ m, SegNT (buildTrie ws) str e s m := by
  constructor
  · intro hseg
    induction hseg with
    | last s h1 h2 =>
        exact ⟨1, SegNT.last s h1 ((leafAt_buildTrie ws str s e).mpr h2)⟩
    | cons s p h1 h2 h3 _ ih =>
        obtain ⟨m, hm⟩ := ih
        exact ⟨m + 1, SegNT.cons s p m h1 h2
          ((leafAt_buildTrie ws str s p).mpr h3) hm⟩
  · rintro ⟨m, hm⟩
    induction hm with
    | last s h1 h2 =>
        exact SegD.last s h1 ((leafAt_buildTrie ws str s e).mp h2)
    | cons s p n h1 h2 h3 _ ih =>
        exact SegD.cons s p h1 h2 ((leafAt_buildTrie ws str s p).mp h3) ih

/-! ### Driver lemmas -/

theorem le_foldr_max : ∀ (l : List Nat) (x : Nat), x ∈ l → x ≤ l.foldr max 0 := by
  intro l
  induction l with
  | nil => intro x hx; exact absurd hx (by simp)
  | cons a l ih =>
      intro x hx
      rcases List.mem_cons.mp hx with h | h
      · subst h; exact le_max_left _ _
      · exact le_trans (ih x h) (le_max_right _ _)

theorem mem_lengthsDesc (ws : List Word) (n : Nat) :
    n ∈ lengthsDesc ws ↔ ∃ w, w ∈ ws ∧ w.length = n := by
  unfold lengthsDesc
  simp only [List.mem_filter, List.mem_reverse, List.mem_range]
  constructor
  · rintro ⟨_, h2⟩
    have hmem : n ∈ ws.map List.length := by simpa [List.contains] using h2
    simpa [List.mem_map] using hmem
  · rintro ⟨w, hw, hlen⟩
    have hmem : n ∈ ws.map List.length := List.mem_map.mpr ⟨w, hw, hlen⟩
    refine ⟨Nat.lt_succ_of_le (le_foldr_max _ _ hmem), ?_⟩
    simpa [List.contains] using hmem

theorem lengthsDesc_sorted (ws : List Word) :
    (lengthsDesc ws).Pairwise (· > ·) := by
  unfold lengthsDesc
  refine List.Pairwise.filter _ ?_
  rw [List.pairwise_reverse]
  exact List.pairwise_lt_range _

theorem driverLoop_eq_flatMap (root : Trie) (buckets : Nat → List Word) :
    ∀ (lens : List Nat),
      driverLoop root buckets lens =
        lens.flatMap (fun len => (buckets len).filter (qualifies root)) := by
  intro lens
  induction lens with
  | nil => rfl
  | cons len rest ih => simp [driverLoop, ih]

theorem mem_driverLoop (root : Trie) (buckets : Nat → List Word) :
    ∀ (lens : List Nat) (w : Word),
      w ∈ driverLoop root buckets lens ↔
        ∃ len, len ∈ lens ∧ w ∈ buckets len ∧ qualifies root w = true := by
  intro lens
  induction lens with
  | nil => intro w; simp [driverLoop]
  | cons len rest ih =>
      intro w
      simp only [driverLoop, List.mem_append, List.mem_filter, ih w,
        List.mem_cons]
      constructor
      · rintro (⟨h1, h2⟩ | ⟨l, h1, h2, h3⟩)
        · exact ⟨len, Or.inl rfl, h1, h2⟩
        · exact ⟨l, Or.inr h1, h2, h3⟩
      · rintro ⟨l, hl | hl, h2, h3⟩
        · subst hl; exact Or.inl ⟨h2, h3⟩
        · exact Or.inr ⟨l, hl, h2, h3⟩

theorem mem_mainOutput (ws : List Word) (w : Word) :
    w ∈ mainOutput ws ↔
      w ∈ ws ∧ qualifies (buildTrie ws) w = true := by
  unfold mainOutput
  rw [mem_driverLoop]
  constructor
  · rintro ⟨len, _, h2, h3⟩
    exact ⟨(List.mem_filter.mp h2).1, h3⟩
  · rintro ⟨h1, h2⟩
    refine ⟨w.length, ?_, ?_, h2⟩
    · exact (mem_lengthsDesc ws w.length).mpr ⟨w, h1, rfl⟩
    · exact List.mem_filter.mpr ⟨h1, by simp⟩

/-! ### Idempotence of insertion -/

theorem insertWord_insertWord : ∀ (w : Word) (t : Trie),
    insertWord (insertWord t w) w = insertWord t w := by
  intro w
  induction w with
  | nil => intro t; cases t; rfl
  | cons c cs ih =>
      intro t
      cases t with
      | mk b ch =>
          show Trie.mk _ _ = _
          simp only [insertWord, Trie.character, Trie.isLeaf,
            Function.update_same, Option.getD_some]
          rw [ih, Function.update_idem]

theorem insertWord_iterate : ∀ (n : Nat) (t : Trie) (w : Word),
    (fun u => insertWord u w)^[n] (insertWord t w) = insertWord t w := by
  intro n
  induction n with
  | zero => intro t w; rfl
  | succ n ih =>
      intro t w
      rw [Function.iterate_succ_apply, insertWord_insertWord, ih]

/-! ### The literal and the amended specification procedures -/

theorem specSegLoop_neg (node : Trie) (str : Word) (start e i : Int)
    (h : e < i) : specSegLoop node str start e i = (false, 0) := by
  rw [specSegLoop]
  simp [not_le.mpr h]

theorem specSegLoop_unfold (node : Trie) (str : Word) (start e i : Int)
    (h : i ≤ e) :
    specSegLoop node str start e i =
      (if i = e then
        ((isLeafBreak node str start e i).1,
          if (isLeafBreak node str start e i).1 then 1 else 0)
      else if (isLeafBreak node str start e i).1 &&
          (specCanSegment node str (i + 1) e).1 then
        (true, 1 + (specCanSegment node str (i + 1) e).2)
      else specSegLoop node str start e (i + 1)) := by
  conv_lhs => rw [specSegLoop]
  rw [dif_pos h]
  rfl

theorem specSegLoopAdv_neg (node : Trie) (str : Word) (start e i : Int)
    (h : e < i) : specSegLoopAdv node str start e i = (false, 0) := by
  rw [specSegLoopAdv]
  simp [not_le.mpr h]

theorem specSegLoopAdv_unfold (node : Trie) (str : Word) (start e i : Int)
    (h : i ≤ e) :
    specSegLoopAdv node str start e i =
      (if (isLeafBreak node str start e i).2 = e then
        ((isLeafBreak node str start e i).1,
          if (isLeafBreak node str start e i).1 then 1 else 0)
      else if (isLeafBreak node str start e i).1 &&
          (specCanSegmentAdv node str ((isLeafBreak node str start e i).2 + 1) e).1 then
        (true, 1 + (specCanSegmentAdv node str ((isLeafBreak node str start e i).2 + 1) e).2)
      else specSegLoopAdv node str start e ((isLeafBreak node str start e i).2 + 1)) := by
  conv_lhs => rw [specSegLoopAdv]
  rw [dif_pos h]
  rfl

theorem specSegLoopAdv_eq_concatWordAux (node : Trie) (str : Word) (e : Int) :
    ∀ (n : Nat) (start i : Int), (e + 1 - i).toNat = n →
      specSegLoopAdv node str start e i = concatWordAux node str start e i := by
  intro n
  induction n using Nat.strong_induction_on with
  | _ n IH =>
      intro start i hn
      by_cases hie : i ≤ e
      · rw [specSegLoopAdv_unfold node str start e i hie,
          concatWordAux_unfold node str start e i hie]
        have hbnd := isLeafBreak_snd_bounds node str start e i hie
        by_cases h2 : (isLeafBreak node str start e i).2 = e
        · rw [if_pos h2, if_pos h2]
        · have hrec1 : specCanSegmentAdv node str
              ((isLeafBreak node str start e i).2 + 1) e =
              concatWord node str ((isLeafBreak node str start e i).2 + 1) e := by
            unfold specCanSegmentAdv concatWord
            by_cases hx : e < (isLeafBreak node str start e i).2 + 1
            · rw [if_pos hx, if_pos hx]
            · rw [if_neg hx, if_neg hx]
              exact IH (e + 1 - ((isLeafBreak node str start e i).2 + 1)).toNat
                (by omega) _ _ rfl
          have hrec2 : specSegLoopAdv node str start e
              ((isLeafBreak node str start e i).2 + 1) =
              concatWordAux node str start e
              ((isLeafBreak node str start e i).2 + 1) :=
            IH (e + 1 - ((isLeafBreak node str start e i).2 + 1)).toNat
              (by omega) _ _ rfl
          rw [if_neg h2, if_neg h2, hrec1, hrec2]
      · rw [specSegLoopAdv_neg node str start e i (by omega),
          concatWordAux_neg node str start e i (by omega)]

theorem specCanSegmentAdv_eq_concatWord (node : Trie) (str : Word)
    (start e : Int) :
    specCanSegmentAdv node str start e = concatWord node str start e := by
  unfold specCanSegmentAdv concatWord
  by_cases hx : e < start
  · rw [if_pos hx, if_pos hx]
  · rw [if_neg hx, if_neg hx]
    exact specSegLoopAdv_eq_concatWordAux node str e _ start start rfl

/-! ### Full-word lookups -/

theorem leafAt_full (t : Trie) (w : Word) :
    leafAt t w 0 ((w.length : Int) - 1) = leafB (walk t w) := by
  unfold leafAt
  have h : ((w.length : Int) - 1 + 1 - 0).toNat = w.length := by omega
  rw [h, walkIdx_eq_walk, extractN_self]

/-! ## The claims -/

/-- Claim C1: over the trie built from the dictionary `ws`, `concatWord`
reports `found = true` on a valid range `[start, e]` of a word iff the range
has an ordered partition into one or more contiguous substrings that are each
members of `ws`.  (In particular a word absent from `ws` but decomposable
into members is reported found, and a range that is itself a member is never
reported not-found.) -/
theorem concatWord_found_iff_partition (ws : List Word) (str : Word)
    (start e : Int) (_h0 : 0 ≤ start) (_h1 : start ≤ e)
    (_h2 : e < (str.length : Int)) :
    ((concatWord (buildTrie ws) str start e).1 = true ↔ SegD ws str e start) := by
  rw [segD_iff_segNT]
  constructor
  · intro h
    exact ⟨(concatWord (buildTrie ws) str start e).2,
      concatWord_sound (buildTrie ws) str start e h⟩
  · rintro ⟨m, hm⟩
    exact concatWord_complete hm

/-- Witness for C1 at the dictionary `{"a"}`, word `"a"`, range `[0, 0]`. -/
theorem concatWord_found_iff_partition_witness :
    (0 : Int) ≤ 0 ∧ (0 : Int) ≤ 0 ∧
      (0 : Int) < (([(0 : Char26)] : Word).length : Int) ∧
      ((concatWord (buildTrie [[(0 : Char26)]]) [(0 : Char26)] 0 0).1 = true ↔
        SegD [[(0 : Char26)]] [(0 : Char26)] 0 0) :=
  ⟨le_rfl, le_rfl, by decide,
    concatWord_found_iff_partition [[(0 : Char26)]] [(0 : Char26)] 0 0
      le_rfl le_rfl (by decide)⟩

/-- Claim C2: on a valid range, `isLeafBreak` (a) returns success with break
position `p0` when `p0` is the first position in `[start, e]`, scanning left
to right, whose walked node is terminal with `p0 ≥ mid`; (b) returns failure
when the walk reaches a missing child edge (whatever `mid` is); and (c) when
the entire range is walked with no early hit, returns success exactly when
the node at `e` is terminal, with break position `e`. -/
theorem isLeafBreak_spec (node : Trie) (str : Word) (start e mid : Int)
    (hse : start ≤ e) :
    (∀ p0, start ≤ p0 → p0 ≤ e → mid ≤ p0 →
      leafAt node str start p0 = true →
      (∀ q, start ≤ q → q < p0 → ¬(mid ≤ q ∧ leafAt node str start q = true)) →
      isLeafBreak node str start e mid = (true, p0)) ∧
    (∀ j, start ≤ j → j ≤ e →
      walkIdx node str start (j + 1 - start).toNat = none →
      (∀ q, start ≤ q → q < j → ¬(mid ≤ q ∧ leafAt node str start q = true)) →
      (isLeafBreak node str start e mid).1 = false) ∧
    ((walkIdx node str start (e + 1 - start).toNat).isSome = true →
      (∀ q, start ≤ q → q < e → ¬(mid ≤ q ∧ leafAt node str start q = true)) →
      isLeafBreak node str start e mid = (leafAt node str start e, e)) := by
  refine ⟨fun p0 h1 h2 h3 h4 h5 => isLeafBreak_first h1 h2 h3 h4 h5, ?_, ?_⟩
  · intro j h1 h2 h3 h4
    rw [isLeafBreak_missing h1 h2 h3 h4]
  · intro hsome hmin
    by_cases hem : e < mid
    · rw [isLeafBreak_midbig (by omega) hem hsome]
    · cases hterm : leafAt node str start e with
      | false => rw [isLeafBreak_fullwalk (by omega) hsome hmin hterm]
      | true => rw [isLeafBreak_first hse le_rfl (by omega) hterm hmin]

/-- Witness for C2 at the empty trie, empty word, range `[0, 0]`, `mid = 0`. -/
theorem isLeafBreak_spec_witness :
    (0 : Int) ≤ 0 ∧
    ((∀ p0, (0 : Int) ≤ p0 → p0 ≤ 0 → (0 : Int) ≤ p0 →
      leafAt create [] 0 p0 = true →
      (∀ q, (0 : Int) ≤ q → q < p0 → ¬((0 : Int) ≤ q ∧ leafAt create [] 0 q = true)) →
      isLeafBreak create [] 0 0 0 = (true, p0)) ∧
    (∀ j, (0 : Int) ≤ j → j ≤ 0 →
      walkIdx create [] 0 (j + 1 - 0).toNat = none →
      (∀ q, (0 : Int) ≤ q → q < j → ¬((0 : Int) ≤ q ∧ leafAt create [] 0 q = true)) →
      (isLeafBreak create [] 0 0 0).1 = false) ∧
    ((walkIdx create [] 0 ((0 : Int) + 1 - 0).toNat).isSome = true →
      (∀ q, (0 : Int) ≤ q → q < 0 → ¬((0 : Int) ≤ q ∧ leafAt create [] 0 q = true)) →
      isLeafBreak create [] 0 0 0 = (leafAt create [] 0 0, 0))) :=
  ⟨le_rfl, isLeafBreak_spec create [] 0 0 0 le_rfl⟩

/-- Claim C3 counterexample: for the dictionary `{"ab", "bc"}` and the word
`"abc"` on range `[0, 2]`, the procedure exactly as the spec words it (plain
candidate split point `i` in steps b and c) returns `(true, 2)`, while the
implementation `concatWord` returns `(false, 0)` — so the two are not
extensionally equal. -/
theorem concatWord_ne_specCanSegment :
    specCanSegment (buildTrie cexDict) cexWord 0 2 = (true, 2) ∧
      concatWord (buildTrie cexDict) cexWord 0 2 = (false, 0) := by
  have hb1 : isLeafBreak (buildTrie cexDict) cexWord 0 2 0 = (true, 1) := by decide
  have hb2 : isLeafBreak (buildTrie cexDict) cexWord 1 2 1 = (true, 2) := by decide
  have hb3 : isLeafBreak (buildTrie cexDict) cexWord 2 2 2 = (false, 2) := by decide
  have hb4 : isLeafBreak (buildTrie cexDict) cexWord 1 2 2 = (true, 2) := by decide
  have hb5 : isLeafBreak (buildTrie cexDict) cexWord 0 2 2 = (false, 2) := by decide
  constructor
  · have hs22 : specCanSegment (buildTrie cexDict) cexWord 2 2 = (false, 0) := by
      rw [specCanSegment, if_neg (by norm_num),
        specSegLoop_unfold _ _ _ _ _ le_rfl, hb3]
      simp
    have hs12 : specCanSegment (buildTrie cexDict) cexWord 1 2 = (true, 1) := by
      rw [specCanSegment, if_neg (by norm_num),
        specSegLoop_unfold _ _ _ _ _ (by norm_num), hb2]
      norm_num [hs22]
      rw [specSegLoop_unfold _ _ _ _ _ le_rfl, hb4]
      simp
    rw [specCanSegment, if_neg (by norm_num),
      specSegLoop_unfold _ _ _ _ _ (by norm_num), hb1]
    norm_num [hs12]
  · have hc22 : concatWord (buildTrie cexDict) cexWord 2 2 = (false, 0) := by
      rw [concatWord_pos _ _ _ _ le_rfl, concatWordAux_unfold _ _ _ _ _ le_rfl,
        hb3]
      simp
    rw [concatWord_pos _ _ _ _ (by norm_num),
      concatWordAux_unfold _ _ _ _ _ (by norm_num), hb1]
    norm_num [hc22]
    rw [concatWordAux_unfold _ _ _ _ _ le_rfl, hb5]
    simp

/-- Claim C3 as amended: `concatWord` is extensionally equal, for every trie,
word and range, to the spec procedure amended so that after the `findBreak`
query the candidate split point is advanced to the returned break position
before the `i == end` test and the recursive call, with iteration resuming
after that position. -/
theorem concatWord_eq_specCanSegmentAdv (node : Trie) (str : Word)
    (start e : Int) :
    concatWord node str start e = specCanSegmentAdv node str start e :=
  (specCanSegmentAdv_eq_concatWord node str start e).symm

/-- Claim C4 counterexample: after the empty sequence of insertions, the root
(the node reached via the empty edge sequence) exists, yet the empty string is
not a prefix of any inserted word — the claimed equivalence fails at
`ws = []`, `S = ""`. -/
theorem walk_empty_counterexample :
    (walk (buildTrie ([] : List Word)) []).isSome = true ∧
      ¬ ∃ w ∈ ([] : List Word), ([] : Word) <+: w :=
  ⟨rfl, by simp⟩

/-- Claim C4 as amended: in the trie built by inserting the words `ws` into
`create`, a node reachable via the edge sequence spelling `S` exists iff `S`
is empty (the root always exists) or `S` is a prefix of some inserted word;
and the node's `isLeaf` flag holds iff `S` itself is an inserted word. -/
theorem trie_shape_invariant (ws : List Word) (S : Word) :
    ((walk (buildTrie ws) S).isSome = true ↔ S = [] ∨ ∃ w ∈ ws, S <+: w) ∧
      (leafB (walk (buildTrie ws) S) = true ↔ S ∈ ws) :=
  ⟨walk_buildTrie_isSome ws S, leaf_walk_buildTrie ws S⟩

/-- Claim C5: every word `w` inserted into the trie (in any order, among any
other insertions) is found by the exact-match lookup
`findBreak(w, 0, length-1, minBreak = length-1)`. -/
theorem insert_findBreak_roundtrip (ws : List Word) (w : Word) (h : w ∈ ws) :
    (isLeafBreak (buildTrie ws) w 0 ((w.length : Int) - 1)
      ((w.length : Int) - 1)).1 = true := by
  have hleaf : leafB (walk (buildTrie ws) w) = true :=
    (leaf_walk_buildTrie ws w).mpr h
  have hfull : leafAt (buildTrie ws) w 0 ((w.length : Int) - 1) = true := by
    rw [leafAt_full]; exact hleaf
  cases w with
  | nil => exact hleaf
  | cons c cs =>
      have hfirst := @isLeafBreak_first (buildTrie ws) (c :: cs) 0
        ((((c :: cs).length : Nat) : Int) - 1)
        ((((c :: cs).length : Nat) : Int) - 1)
        ((((c :: cs).length : Nat) : Int) - 1)
        (by simp) le_rfl le_rfl hfull
        (fun q _ hq hand => absurd hand.1 (by omega))
      rw [hfirst]

/-- Witness for C5 at the dictionary `{"a"}` and the word `"a"`. -/
theorem insert_findBreak_roundtrip_witness :
    ([(0 : Char26)] : Word) ∈ [[(0 : Char26)]] ∧
      (isLeafBreak (buildTrie [[(0 : Char26)]]) [(0 : Char26)] 0
        ((([(0 : Char26)] : Word).length : Int) - 1)
        ((([(0 : Char26)] : Word).length : Int) - 1)).1 = true :=
  ⟨by simp, insert_findBreak_roundtrip [[(0 : Char26)]] [(0 : Char26)] (by simp)⟩

/-- Claim C6: a word is emitted by the driver iff `concatWord` over the
populated trie reports it found with piece count above 1; the emission order
is by strictly decreasing length over exactly the lengths present, and within
one length group the words appear in the loader's storage (input) order. -/
theorem mainOutput_spec (ws : List Word) :
    (∀ w, w ∈ mainOutput ws ↔
      w ∈ ws ∧ (concatWord (buildTrie ws) w 0 ((w.length : Int) - 1)).1 = true ∧
        1 < (concatWord (buildTrie ws) w 0 ((w.length : Int) - 1)).2) ∧
    (lengthsDesc ws).Pairwise (· > ·) ∧
    (∀ n, n ∈ lengthsDesc ws ↔ ∃ w, w ∈ ws ∧ w.length = n) ∧
    mainOutput ws = (lengthsDesc ws).flatMap
      (fun len => (ws.filter (fun w => w.length = len)).filter
        (qualifies (buildTrie ws))) := by
  refine ⟨?_, lengthsDesc_sorted ws, mem_lengthsDesc ws,
    driverLoop_eq_flatMap (buildTrie ws) _ (lengthsDesc ws)⟩
  intro w
  rw [mem_mainOutput]
  unfold qualifies
  simp only [Bool.and_eq_true, decide_eq_true_eq, and_assoc]

/-- Claim C7: `concatWord` on an empty range (`start > end`) returns
`(false, 0)` for every trie and word (so without consulting either). -/
theorem concatWord_empty_range (node : Trie) (str : Word) (start e : Int)
    (h : e < start) : concatWord node str start e = (false, 0) := by
  rw [concatWord, if_pos h]

/-- Witness for C7 at the empty trie, empty word, range `[0, -1]`. -/
theorem concatWord_empty_range_witness :
    (-1 : Int) < 0 ∧ concatWord create [] 0 (-1) = (false, 0) :=
  ⟨by decide, concatWord_empty_range create [] 0 (-1) (by decide)⟩

/-- Claim C8: inserting a word any number of further times after the first
leaves every `isLeafBreak` and `concatWord` query result unchanged. -/
theorem insertWord_idempotent_queries (t : Trie) (w : Word) (n : Nat)
    (str1 str2 : Word) (start e mid s2 e2 : Int) :
    isLeafBreak ((fun u => insertWord u w)^[n + 1] t) str1 start e mid =
      isLeafBreak (insertWord t w) str1 start e mid ∧
    concatWord ((fun u => insertWord u w)^[n + 1] t) str2 s2 e2 =
      concatWord (insertWord t w) str2 s2 e2 := by
  have h : (fun u => insertWord u w)^[n + 1] t = insertWord t w := by
    rw [Function.iterate_succ_apply]
    exact insertWord_iterate n t w
  rw [h]
  exact ⟨rfl, rfl⟩

/-- Claim C9: on a valid range, `concatWord`'s two outputs are linked: the
boolean is false exactly when the count is 0, and a true result with count `n`
has `n ≥ 1` and is witnessed by an actual partition of the range into exactly
`n` pieces, each ending at a terminal node of the trie. -/
theorem concatWord_result_count_link (t : Trie) (str : Word) (start e : Int)
    (_h0 : 0 ≤ start) (_h1 : start ≤ e) (_h2 : e < (str.length : Int)) :
    ((concatWord t str start e).1 = false ↔ (concatWord t str start e).2 = 0) ∧
      ((concatWord t str start e).1 = true →
        1 ≤ (concatWord t str start e).2 ∧
          SegNT t str e start (concatWord t str start e).2) := by
  refine ⟨concatWord_false_iff_zero t str start e,
    fun h => ⟨?_, concatWord_sound t str start e h⟩⟩
  by_contra hz
  have h0 : (concatWord t str start e).2 = 0 := by omega
  have hf := (concatWord_false_iff_zero t str start e).mpr h0
  rw [h] at hf
  simp at hf

/-- Witness for C9 at the empty trie, word `"a"`, range `[0, 0]`. -/
theorem concatWord_result_count_link_witness :
    (0 : Int) ≤ 0 ∧ (0 : Int) ≤ 0 ∧
      (0 : Int) < (([(0 : Char26)] : Word).length : Int) ∧
      (((concatWord create [(0 : Char26)] 0 0).1 = false ↔
          (concatWord create [(0 : Char26)] 0 0).2 = 0) ∧
        ((concatWord create [(0 : Char26)] 0 0).1 = true →
          1 ≤ (concatWord create [(0 : Char26)] 0 0).2 ∧
            SegNT create [(0 : Char26)] 0 0
              (concatWord create [(0 : Char26)] 0 0).2)) :=
  ⟨le_rfl, le_rfl, by decide,
    concatWord_result_count_link create [(0 : Char26)] 0 0 le_rfl le_rfl
      (by decide)⟩

/-- Claim C10: the final value of `isLeafBreak`'s in-out `mid` is fully
determined: on success it is the reported break position, at least its
initial value or equal to `end`; on a missing-edge failure it is unchanged;
on a full-walk failure with the final node not terminal it is set to `end`;
and `concatWord` passes its loop variable as `mid`, so after a query the loop
variable is the returned break position, used by the `i == end` test and the
recursive call. -/
theorem isLeafBreak_mid_contract (node : Trie) (str : Word) (start e mid : Int)
    (hse : start ≤ e) :
    ((isLeafBreak node str start e mid).1 = true →
      mid ≤ (isLeafBreak node str start e mid).2 ∨
        (isLeafBreak node str start e mid).2 = e) ∧
    (∀ j, start ≤ j → j ≤ e →
      walkIdx node str start (j + 1 - start).toNat = none →
      (∀ q, start ≤ q → q < j → ¬(mid ≤ q ∧ leafAt node str start q = true)) →
      isLeafBreak node str start e mid = (false, mid)) ∧
    ((walkIdx node str start (e + 1 - start).toNat).isSome = true →
      (∀ q, start ≤ q → q < e → ¬(mid ≤ q ∧ leafAt node str start q = true)) →
      leafAt node str start e = false →
      isLeafBreak node str start e mid = (false, e)) ∧
    (∀ i, i ≤ e →
      concatWordAux node str start e i =
        (if (isLeafBreak node str start e i).2 = e then
          ((isLeafBreak node str start e i).1,
            if (isLeafBreak node str start e i).1 then 1 else 0)
        else if (isLeafBreak node str start e i).1 &&
            (concatWord node str ((isLeafBreak node str start e i).2 + 1) e).1 then
          (true, 1 + (concatWord node str ((isLeafBreak node str start e i).2 + 1) e).2)
        else concatWordAux node str start e
          ((isLeafBreak node str start e i).2 + 1))) := by
  refine ⟨isLeafBreak_true_mid, ?_, ?_, ?_⟩
  · intro j h1 h2 h3 h4
    exact isLeafBreak_missing h1 h2 h3 h4
  · intro hsome hmin hnt
    exact isLeafBreak_fullwalk (by omega) hsome hmin hnt
  · intro i hie
    exact concatWordAux_unfold node str start e i hie

/-- Witness for C10 at the empty trie, empty word, range `[0, 0]`, `mid = 0`. -/
theorem isLeafBreak_mid_contract_witness :
    (0 : Int) ≤ 0 ∧
    (((isLeafBreak create [] 0 0 0).1 = true →
      (0 : Int) ≤ (isLeafBreak create [] 0 0 0).2 ∨
        (isLeafBreak create [] 0 0 0).2 = 0) ∧
    (∀ j, (0 : Int) ≤ j → j ≤ 0 →
      walkIdx create [] 0 (j + 1 - 0).toNat = none →
      (∀ q, (0 : Int) ≤ q → q < j → ¬((0 : Int) ≤ q ∧ leafAt create [] 0 q = true)) →
      isLeafBreak create [] 0 0 0 = (false, 0)) ∧
    ((walkIdx create [] 0 ((0 : Int) + 1 - 0).toNat).isSome = true →
      (∀ q, (0 : Int) ≤ q → q < 0 → ¬((0 : Int) ≤ q ∧ leafAt create [] 0 q = true)) →
      leafAt create [] 0 0 = false →
      isLeafBreak create [] 0 0 0 = (false, 0)) ∧
    (∀ i, i ≤ (0 : Int) →
      concatWordAux create [] 0 0 i =
        (if (isLeafBreak create [] 0 0 i).2 = 0 then
          ((isLeafBreak create [] 0 0 i).1,
            if (isLeafBreak create [] 0 0 i).1 then 1 else 0)
        else if (isLeafBreak create [] 0 0 i).1 &&
            (concatWord create [] ((isLeafBreak create [] 0 0 i).2 + 1) 0).1 then
          (true, 1 + (concatWord create [] ((isLeafBreak create [] 0 0 i).2 + 1) 0).2)
        else concatWordAux create [] 0 0
          ((isLeafBreak create [] 0 0 i).2 + 1)))) :=
  ⟨le_rfl, isLeafBreak_mid_contract create [] 0 0 0 le_rfl⟩

end Words
